import Mathlib

/-! # `TPoint<T>` of `src/framework/util/point.h`

A shallow embedding of the generic two-dimensional point of the client
framework, with the instantiation `Point = TPoint<int>`.

* The element type `T` of the template is a type with the primitive operations
  the template applies to it (`Elem T`).  For `int` they are the 32-bit
  two's-complement operations, on `Int` with explicit reduction modulo `2^32`.
* Floating-point arithmetic (`float`) is not fixed: the operations `scale` and
  `length` use are taken as parameters (`FloatOps`, `sqrt`, `toFloat`), so that a
  statement can hold for every reading of them.  `scale` is also run on the
  finite numbers of IEEE 754 binary32 with each operation rounded (`f32Ops`).
* Streams are character buffers; the formatted output and input of an `int` are
  those of the C++ standard library in the classic locale.
-/

namespace OTClient

/-! ## 32-bit signed integers -/

/-- Reduction of a mathematical integer to the 32-bit two's-complement value
with the same residue modulo `2^32` (overflow read as wraparound). -/
def wrap32 (n : Int) : Int := (n + 2147483648) % 4294967296 - 2147483648

/-- The values of a C++ `int`: `INT_MIN ≤ n ≤ INT_MAX`. -/
def InRange32 (n : Int) : Prop := -2147483648 ≤ n ∧ n ≤ 2147483647

instance (n : Int) : Decidable (InRange32 n) := by
  unfold InRange32; exact inferInstance

/-! ## The element type of the template -/

/-- The primitive operations `TPoint<T>` applies to its element type `T`:
the conversion of the literal `0`, the arithmetic operators, `std::abs` and the
six comparison operators.  Division is the one that can be undefined: it gives
`none` where the quotient of the two operands is. -/
class Elem (T : Type) where
  zero : T
  add : T → T → T
  sub : T → T → T
  mul : T → T → T
  div : T → T → Option T
  neg : T → T
  abs : T → T
  le : T → T → Bool
  ge : T → T → Bool
  lt : T → T → Bool
  gt : T → T → Bool
  eq : T → T → Bool
  ne : T → T → Bool

/-- The element type `int`: 32-bit arithmetic with wraparound.  Division
truncates toward zero and is undefined for a zero divisor and for
`INT_MIN / -1`, whose quotient is not an `int`. -/
instance instElemInt : Elem Int where
  zero := 0
  add a b := wrap32 (a + b)
  sub a b := wrap32 (a - b)
  mul a b := wrap32 (a * b)
  div a b := if b = 0 ∨ (a = -2147483648 ∧ b = -1) then none else some (Int.tdiv a b)
  neg a := wrap32 (-a)
  abs a := wrap32 (if a < 0 then -a else a)
  le a b := decide (a ≤ b)
  ge a b := decide (a ≥ b)
  lt a b := decide (a < b)
  gt a b := decide (a > b)
  eq a b := decide (a = b)
  ne a b := decide (a ≠ b)

/-! ## The point -/

/-- The class `TPoint<T>`: the two public members `x` and `y`. -/
structure TPoint (T : Type) where
  x : T
  y : T
deriving DecidableEq

/-- The instantiation `using Point = TPoint<int>`. -/
abbrev Point := TPoint Int

/-- Both coordinates of an integer point are values of a C++ `int`. -/
def Point.InRange (p : Point) : Prop := InRange32 p.x ∧ InRange32 p.y

instance (p : Point) : Decidable p.InRange := by
  unfold Point.InRange; exact inferInstance

namespace TPoint

variable {T : Type}

/-- The constructor `TPoint() : x(0), y(0)`. -/
def mk0 [Elem T] : TPoint T := ⟨Elem.zero, Elem.zero⟩

/-- The constructor `TPoint(T xy) : x(xy), y(xy)`. -/
def mk1 (xy : T) : TPoint T := ⟨xy, xy⟩

/-- The constructor `TPoint(T x, T y) : x(x), y(y)`. -/
def mk2 (x y : T) : TPoint T := ⟨x, y⟩

/-- The method `isNull`: `x == 0 && y == 0`. -/
def isNull [Elem T] (p : TPoint T) : Bool :=
  Elem.eq p.x Elem.zero && Elem.eq p.y Elem.zero

/-- The method `translated`: a local copy `point` of the receiver is moved by
`(dx, dy)` and returned.  The result is the pair of the receiver after the call
and the returned point. -/
def translated [Elem T] (p : TPoint T) (dx dy : T) : TPoint T × TPoint T :=
  let point : TPoint T := p
  let point : TPoint T := { point with x := Elem.add point.x dx }
  let point : TPoint T := { point with y := Elem.add point.y dy }
  (p, point)

/-- The `float` operations `scale` uses: the constant `1.f`, `-`, `*`, `/`, the
conversion of a coordinate to `float` and the conversion back on assignment. -/
structure FloatOps (F T : Type) where
  one : F
  sub : F → F → F
  mul : F → F → F
  div : F → F → F
  ofT : T → F
  toT : F → T

/-- The method `scale`.  For `v != 1.f` each coordinate `c` is replaced by
`c - c * factor`, computed in `float` and converted back to `T`, with
`factor = 1.f - 1.f / v`; for `v == 1.f` nothing is assigned.  The test
`v != 1.f` is inequality with the one value `1.f`.  The result is the pair of
the receiver after the call and the returned copy `*this`. -/
def scale {F : Type} [DecidableEq F] (fl : FloatOps F T) (p : TPoint T) (v : F) :
    TPoint T × TPoint T :=
  if v ≠ fl.one then
    let factor := fl.sub fl.one (fl.div fl.one v)
    let p1 : TPoint T := { p with x := fl.toT (fl.sub (fl.ofT p.x) (fl.mul (fl.ofT p.x) factor)) }
    let p2 : TPoint T := { p1 with y := fl.toT (fl.sub (fl.ofT p1.y) (fl.mul (fl.ofT p1.y) factor)) }
    (p2, p2)
  else
    (p, p)

/-- Unary `operator-`: `TPoint(-x, -y)`. -/
def operatorNeg [Elem T] (p : TPoint T) : TPoint T := mk2 (Elem.neg p.x) (Elem.neg p.y)

/-- Binary `operator+` with a point: `TPoint(x + other.x, y + other.y)`. -/
def operatorPlus [Elem T] (p other : TPoint T) : TPoint T :=
  mk2 (Elem.add p.x other.x) (Elem.add p.y other.y)

/-- Binary `operator-` with a point: `TPoint(x - other.x, y - other.y)`. -/
def operatorMinus [Elem T] (p other : TPoint T) : TPoint T :=
  mk2 (Elem.sub p.x other.x) (Elem.sub p.y other.y)

/-- The comparison `operator<=`: `x <= other.x && y <= other.y`. -/
def operatorLe [Elem T] (p other : TPoint T) : Bool :=
  Elem.le p.x other.x && Elem.le p.y other.y

/-- The comparison `operator>=`: `x >= other.x && y >= other.y`. -/
def operatorGe [Elem T] (p other : TPoint T) : Bool :=
  Elem.ge p.x other.x && Elem.ge p.y other.y

/-- The comparison `operator<`: `x < other.x && y < other.y`. -/
def operatorLt [Elem T] (p other : TPoint T) : Bool :=
  Elem.lt p.x other.x && Elem.lt p.y other.y

/-- The comparison `operator>`: `x > other.x && y > other.y`. -/
def operatorGt [Elem T] (p other : TPoint T) : Bool :=
  Elem.gt p.x other.x && Elem.gt p.y other.y

/-- The comparison `operator==`: `other.x == x && other.y == y`. -/
def operatorEq [Elem T] (p other : TPoint T) : Bool :=
  Elem.eq other.x p.x && Elem.eq other.y p.y

/-- The comparison `operator!=`: `other.x != x || other.y != y`. -/
def operatorNe [Elem T] (p other : TPoint T) : Bool :=
  Elem.ne other.x p.x || Elem.ne other.y p.y

/-- The method `length`: `sqrt(static_cast<float>(x * x + y * y))`.  The sum of
squares is computed in `T`; `toFloat` is the cast and `sqrt` the square root. -/
def length {F : Type} [Elem T] (sqrt : F → F) (toFloat : T → F) (p : TPoint T) : F :=
  sqrt (toFloat (Elem.add (Elem.mul p.x p.x) (Elem.mul p.y p.y)))

/-- The method `distanceFrom`: `TPoint(x - other.x, y - other.y).length()`. -/
def distanceFrom {F : Type} [Elem T] (sqrt : F → F) (toFloat : T → F)
    (p other : TPoint T) : F :=
  length sqrt toFloat (mk2 (Elem.sub p.x other.x) (Elem.sub p.y other.y))

/-- The method `manhattanLength`: `std::abs(x) + std::abs(y)`, a `T`. -/
def manhattanLength [Elem T] (p : TPoint T) : T :=
  Elem.add (Elem.abs p.x) (Elem.abs p.y)

/-- The compound `operator+=` with a point: `x += other.x; y += other.y;`.  The
result is the pair of the receiver after the call, which the returned
reference `*this` denotes, and the argument after the call: it is taken by
reference to `const` and never assigned. -/
def operatorPlusAssign [Elem T] (p other : TPoint T) : TPoint T × TPoint T :=
  let p1 : TPoint T := { p with x := Elem.add p.x other.x }
  let p2 : TPoint T := { p1 with y := Elem.add p1.y other.y }
  (p2, other)

/-- The compound `operator-=` with a point: `x -= other.x; y -= other.y;`, with
the result as for `operatorPlusAssign`. -/
def operatorMinusAssign [Elem T] (p other : TPoint T) : TPoint T × TPoint T :=
  let p1 : TPoint T := { p with x := Elem.sub p.x other.x }
  let p2 : TPoint T := { p1 with y := Elem.sub p1.y other.y }
  (p2, other)

/-- Binary `operator*` with a point: `TPoint(x * other.x, y * other.y)`. -/
def operatorTimes [Elem T] (p other : TPoint T) : TPoint T :=
  mk2 (Elem.mul p.x other.x) (Elem.mul p.y other.y)

/-- The compound `operator*=` with a point: `x *= other.x; y *= other.y;`, with
the result as for `operatorPlusAssign`. -/
def operatorTimesAssign [Elem T] (p other : TPoint T) : TPoint T × TPoint T :=
  let p1 : TPoint T := { p with x := Elem.mul p.x other.x }
  let p2 : TPoint T := { p1 with y := Elem.mul p1.y other.y }
  (p2, other)

/-- Binary `operator/` with a point: `TPoint(x / other.x, y / other.y)`.  There
is a result only when both quotients are defined. -/
def operatorDiv [Elem T] (p other : TPoint T) : Option (TPoint T) :=
  match Elem.div p.x other.x, Elem.div p.y other.y with
  | some qx, some qy => some (mk2 qx qy)
  | _, _ => none

/-- The compound `operator/=` with a point: `x /= other.x; y /= other.y;`, with
the result as for `operatorPlusAssign` when both quotients are defined, and no
result otherwise. -/
def operatorDivAssign [Elem T] (p other : TPoint T) : Option (TPoint T × TPoint T) :=
  match Elem.div p.x other.x with
  | none => none
  | some qx =>
    let p1 : TPoint T := { p with x := qx }
    match Elem.div p1.y other.y with
    | none => none
    | some qy =>
      let p2 : TPoint T := { p1 with y := qy }
      some (p2, other)

/-- Binary `operator+` with a scalar: `TPoint(x + other, y + other)`. -/
def operatorPlusScalar [Elem T] (p : TPoint T) (other : T) : TPoint T :=
  mk2 (Elem.add p.x other) (Elem.add p.y other)

/-- The compound `operator+=` with a scalar: `x += other; y += other;`.  The
result is the receiver after the call. -/
def operatorPlusAssignScalar [Elem T] (p : TPoint T) (other : T) : TPoint T :=
  let p1 : TPoint T := { p with x := Elem.add p.x other }
  { p1 with y := Elem.add p1.y other }

/-- Binary `operator-` with a scalar: `TPoint(x - other, y - other)`. -/
def operatorMinusScalar [Elem T] (p : TPoint T) (other : T) : TPoint T :=
  mk2 (Elem.sub p.x other) (Elem.sub p.y other)

/-- The compound `operator-=` with a scalar: `x -= other; y -= other;`.  The
result is the receiver after the call. -/
def operatorMinusAssignScalar [Elem T] (p : TPoint T) (other : T) : TPoint T :=
  let p1 : TPoint T := { p with x := Elem.sub p.x other }
  { p1 with y := Elem.sub p1.y other }

/-- The method `hash`: `(7 * 15 + x) * 15 + y`, computed in `T` and converted
to `std::size_t`.  The constant `7 * 15` is `int` arithmetic; `lit` converts an
`int` constant to `T` and `toSize` is the conversion of the result. -/
def hash [Elem T] (lit : Int → T) (toSize : T → Nat) (p : TPoint T) : Nat :=
  toSize (Elem.add (Elem.mul (Elem.add (lit (7 * 15)) p.x) (lit 15)) p.y)

end TPoint

/-- Conversion of a rational to an integer by truncation toward zero. -/
def truncQ (q : ℚ) : Int := Int.tdiv q.num q.den

/-! ## IEEE 754 binary32 -/

/-- Rounding of the non-negative rational `n / d` to the nearest natural
number, a tie going to the even one. -/
def roundHalfEven (n d : Nat) : Nat :=
  if 2 * (n % d) < d then n / d
  else if d < 2 * (n % d) then n / d + 1
  else if (n / d) % 2 = 0 then n / d else n / d + 1

/-- Halving of `n` until it is below `2`, at most `fuel` times: the number of
halvings. -/
def log2Fuel : Nat → Nat → Nat
  | 0, _ => 0
  | fuel + 1, n => if n < 2 then 0 else log2Fuel fuel (n / 2) + 1

/-- The position of the leading bit of a positive `n`: the `k` with
`2 ^ k ≤ n < 2 ^ (k + 1)`. -/
def natLog2 (n : Nat) : Nat := log2Fuel n n

/-- The binary exponent of the positive rational `a / d`: the `e` with
`2 ^ e ≤ a / d < 2 ^ (e + 1)`. -/
def floorLog2 (a d : Nat) : Int :=
  if d * 2 ^ natLog2 a ≤ a * 2 ^ natLog2 d then (natLog2 a : Int) - (natLog2 d : Int)
  else (natLog2 a : Int) - (natLog2 d : Int) - 1

/-- The exponent of the unit in the last place of binary32 at the positive
rational `a / d`: with 24 significant bits it is 23 below the binary exponent,
and `-149` for the subnormal numbers, below `2 ^ (-126)`. -/
def ulpExp (a d : Nat) : Int := max (floorLog2 a d) (-126) - 23

/-- The positive rational `a / d` rounded to binary32, as a numerator and a
denominator: the nearest multiple of the unit in the last place, a tie going to
the even multiple.  There is no finite result, `none`, when the rounded value
reaches `2 ^ 128`: it overflows to infinity. -/
def roundMag (a d : Nat) : Option (Nat × Nat) :=
  let u := ulpExp a d
  let m := roundHalfEven (a * 2 ^ (-u).toNat) (d * 2 ^ u.toNat)
  if 2 ^ 128 * 2 ^ (-u).toNat ≤ m * 2 ^ u.toNat then none
  else some (m * 2 ^ u.toNat, 2 ^ (-u).toNat)

/-- Rounding of a rational to binary32 in the default mode, round to nearest
with ties to even: the magnitude is rounded and the sign kept.  It is `none`
for an overflow. -/
def roundF32 (q : ℚ) : Option ℚ :=
  if q = 0 then some 0
  else
    match roundMag q.num.natAbs q.den with
    | none => none
    | some (n, d) => some (if q < 0 then -((n : ℚ) / (d : ℚ)) else (n : ℚ) / (d : ℚ))

/-- The `float` operations of `scale` in binary32, each operation rounded on
its own.  A value `some q` is the finite number `q`, both zeros being `some 0`;
`none` is a result that is not a finite number, from an overflow or a division
by zero, and a computation is not followed beyond it: an operation on `none`
gives `none`.  The conversion of an `int` rounds.  The conversion to `int`
truncates toward zero; it is undefined for a value that is not finite or whose
truncation is not an `int`, and gives `INT_MIN` there. -/
def f32Ops : TPoint.FloatOps (Option ℚ) Int where
  one := some 1
  sub a b :=
    match a, b with
    | some x, some y => roundF32 (x - y)
    | _, _ => none
  mul a b :=
    match a, b with
    | some x, some y => roundF32 (x * y)
    | _, _ => none
  div a b :=
    match a, b with
    | some x, some y => if y = 0 then none else roundF32 (x / y)
    | _, _ => none
  ofT n := roundF32 (n : ℚ)
  toT f :=
    match f with
    | some q => if InRange32 (truncQ q) then truncQ q else -2147483648
    | none => -2147483648

/-- No operation of `scale` on the coordinate `c` with the factor `v` rounds in
binary32: the conversion of `c`, the product `c * (1 - 1 / v)` and the
difference are binary32 numbers, and the truncation of `c / v` is an `int`. -/
def ScaleExact (v : ℚ) (c : Int) : Prop :=
  roundF32 (c : ℚ) = some (c : ℚ) ∧
  roundF32 ((c : ℚ) * (1 - 1 / v)) = some ((c : ℚ) * (1 - 1 / v)) ∧
  roundF32 ((c : ℚ) - (c : ℚ) * (1 - 1 / v)) = some ((c : ℚ) - (c : ℚ) * (1 - 1 / v)) ∧
  InRange32 (truncQ ((c : ℚ) / v))

instance (v : ℚ) (c : Int) : Decidable (ScaleExact v c) := by
  unfold ScaleExact; exact inferInstance

/-- Conversion of an `int` to `std::size_t`, an unsigned type of `bits` bits
(its width is the platform's): the value modulo `2 ^ bits`. -/
def toSizeT (bits : Nat) (v : Int) : Nat := (v % (2 : Int) ^ bits).toNat

/-- The method `hash` of `Point = TPoint<int>` on a platform whose
`std::size_t` has `bits` bits. -/
def Point.hash (bits : Nat) (p : Point) : Nat :=
  TPoint.hash (fun n : Int => n) (toSizeT bits) p

/-! ## Streams -/

/-- The decimal digits of a natural number, most significant first, without
leading zeros (`"0"` for zero). -/
def natText (n : Nat) : List Char := Nat.toDigits 10 n

/-- The characters `std::ostream::operator<<(int)` inserts with the default
format flags in the classic locale: a minus sign for a negative value, then the
decimal digits of the magnitude. -/
def intText (n : Int) : List Char :=
  if n < 0 then '-' :: natText (-n).toNat else natText n.toNat

/-- The value of a string of decimal digits, read from the left. -/
def digitsVal (cs : List Char) : Nat :=
  cs.foldl (fun acc c => 10 * acc + (c.toNat - 48)) 0

/-- The whitespace of the classic locale (`std::isspace`). -/
def isSpace (c : Char) : Bool :=
  c == ' ' || c == '\t' || c == '\n' || c == '\x0b' || c == '\x0c' || c == '\r'

/-- An output stream: the characters written so far. -/
structure OStream where
  buf : List Char
deriving DecidableEq

/-- Insertion of a string literal: `out << " "`. -/
def OStream.putStr (out : OStream) (cs : List Char) : OStream := ⟨out.buf ++ cs⟩

/-- An input stream: the characters not yet read, and the state bits
`eofbit` and `failbit`. -/
structure IStream where
  buf : List Char
  eofbit : Bool
  failbit : Bool
deriving DecidableEq

/-- A fresh input stream over a text, such as `std::istringstream(text)`. -/
def IStream.ofText (cs : List Char) : IStream := ⟨cs, false, false⟩

/-- The extraction `in >> n` of an `int` with the default flags (`skipws`,
`dec`).  A stream that is not good only gets `failbit` and leaves `n`.
Otherwise leading whitespace is skipped (running out of characters there sets
`eofbit` and `failbit` and leaves `n`), an optional sign and the longest run of
digits are consumed, `eofbit` is set when the characters run out, and the value
is stored: `0` with `failbit` when there is no digit, `INT_MIN` or `INT_MAX`
with `failbit` when the number is not representable. -/
def IStream.getInt (s : IStream) (old : Int) : IStream × Int :=
  if s.eofbit || s.failbit then ({ s with failbit := true }, old)
  else
    match s.buf.dropWhile isSpace with
    | [] => (⟨[], true, true⟩, old)
    | c :: cs =>
      let body := if c == '-' || c == '+' then cs else c :: cs
      let digs := body.takeWhile Char.isDigit
      let rest := body.dropWhile Char.isDigit
      if digs.isEmpty then (⟨rest, rest.isEmpty, true⟩, 0)
      else
        let m : Int := (digitsVal digs : Int)
        let v : Int := if c == '-' then -m else m
        if v < -2147483648 then (⟨rest, rest.isEmpty, true⟩, -2147483648)
        else if 2147483647 < v then (⟨rest, rest.isEmpty, true⟩, 2147483647)
        else (⟨rest, rest.isEmpty, false⟩, v)

/-- Formatted output and input of the element type: what `out << t` and
`in >> t` do for a `T`. -/
class StreamElem (T : Type) where
  put : OStream → T → OStream
  get : IStream → T → IStream × T

instance instStreamElemInt : StreamElem Int where
  put out n := ⟨out.buf ++ intText n⟩
  get := IStream.getInt

/-- The stream `operator<<` of a point: `out << point.x << " " << point.y`. -/
def operatorShl {T : Type} [StreamElem T] (out : OStream) (point : TPoint T) : OStream :=
  StreamElem.put ((StreamElem.put out point.x).putStr [' ']) point.y

/-- The stream `operator>>` of a point: `in >> point.x; in >> point.y;`.  The
result is the stream and the point after the two extractions. -/
def operatorShr {T : Type} [StreamElem T] (inp : IStream) (point : TPoint T) :
    IStream × TPoint T :=
  let r1 := StreamElem.get inp point.x
  let point1 : TPoint T := { point with x := r1.2 }
  let r2 := StreamElem.get r1.1 point1.y
  (r2.1, { point1 with y := r2.2 })

/-! ## Arithmetic of `wrap32` -/

theorem wrap32_of_inRange (n : Int) (h : InRange32 n) : wrap32 n = n := by
  unfold InRange32 at h
  unfold wrap32
  omega

theorem wrap32_add_neg (n : Int) : wrap32 (n + wrap32 (-n)) = 0 := by
  unfold wrap32
  omega

theorem wrap32_add_sub (n d : Int) : wrap32 (wrap32 (n + d) - n) = wrap32 d := by
  unfold wrap32
  omega

theorem sumsq_wrap (x y : Int) (h : x * x + y * y ≤ 2147483647) :
    wrap32 (wrap32 (x * x) + wrap32 (y * y)) = x * x + y * y := by
  have hx : 0 ≤ x * x := mul_self_nonneg x
  have hy : 0 ≤ y * y := mul_self_nonneg y
  rw [wrap32_of_inRange (x * x) ⟨by omega, by omega⟩,
    wrap32_of_inRange (y * y) ⟨by omega, by omega⟩]
  exact wrap32_of_inRange _ ⟨by omega, by omega⟩

/-- With the real-number reading, `length()` is the Euclidean norm exactly when
`x² + y²` does not overflow. -/
theorem length_exact_iff (p : Point) :
    TPoint.length Real.sqrt (fun n : Int => (n : ℝ)) p
      = Real.sqrt ((p.x : ℝ) ^ 2 + (p.y : ℝ) ^ 2) ↔ p.x * p.x + p.y * p.y ≤ 2147483647 := by
  have hs : (0 : Int) ≤ p.x * p.x + p.y * p.y := add_nonneg (mul_self_nonneg _) (mul_self_nonneg _)
  have hw : wrap32 (wrap32 (p.x * p.x) + wrap32 (p.y * p.y)) = wrap32 (p.x * p.x + p.y * p.y) := by
    unfold wrap32; omega
  have hcast : ((p.x : ℝ) ^ 2 + (p.y : ℝ) ^ 2) = ((p.x * p.x + p.y * p.y : Int) : ℝ) := by
    push_cast; ring
  simp only [TPoint.length, Elem.add, Elem.mul, hw, hcast]
  constructor
  · intro h
    by_contra hlt
    have hpos : (0 : ℝ) < ((p.x * p.x + p.y * p.y : Int) : ℝ) := by
      have : (0 : Int) < p.x * p.x + p.y * p.y := by omega
      exact_mod_cast this
    have hlt2 : wrap32 (p.x * p.x + p.y * p.y) < p.x * p.x + p.y * p.y := by
      unfold wrap32; omega
    have hlt3 : ((wrap32 (p.x * p.x + p.y * p.y) : Int) : ℝ) < ((p.x * p.x + p.y * p.y : Int) : ℝ) := by
      exact_mod_cast hlt2
    have := Real.sqrt_lt_sqrt_iff_of_pos hpos |>.mpr hlt3
    exact absurd h (ne_of_lt this)
  · intro h
    rw [wrap32_of_inRange _ ⟨by omega, h⟩]

/-- Adding a multiple of `2^32` does not change the 32-bit value. -/
theorem wrap32_add_mul (n k : Int) : wrap32 (n + 4294967296 * k) = wrap32 n := by
  unfold wrap32
  have : n + 4294967296 * k + 2147483648 = n + 2147483648 + 4294967296 * k := by ring
  rw [this, Int.add_mul_emod_self_left]

/-- The 32-bit square of a 32-bit difference does not depend on the order of
the operands. -/
theorem wrap32_sq_sub_comm (a b : Int) :
    wrap32 (wrap32 (a - b) * wrap32 (a - b)) = wrap32 (wrap32 (b - a) * wrap32 (b - a)) := by
  have h : wrap32 (b - a) = -wrap32 (a - b) ∨
      wrap32 (b - a) = -wrap32 (a - b) - 4294967296 := by
    unfold wrap32; omega
  rcases h with h | h
  · rw [h]; congr 1; ring
  · rw [h]
    have e : (-wrap32 (a - b) - 4294967296) * (-wrap32 (a - b) - 4294967296)
        = wrap32 (a - b) * wrap32 (a - b)
          + 4294967296 * (2 * wrap32 (a - b) + 4294967296) := by ring
    rw [e, wrap32_add_mul]

/-- The 32-bit evaluation of `(7 * 15 + x) * 15 + y` step by step is the 32-bit
value of the whole expression. -/
theorem wrap32_hash_expr (x y : Int) :
    wrap32 (wrap32 (wrap32 (7 * 15 + x) * 15) + y) = wrap32 ((7 * 15 + x) * 15 + y) := by
  unfold wrap32; omega

/-- The truncating quotient of an `int` by a non-zero divisor is an `int`,
`INT_MIN / -1` apart. -/
theorem tdiv_inRange (a b : Int) (ha : InRange32 a) (hb : b ≠ 0)
    (hne : ¬ (a = -2147483648 ∧ b = -1)) : InRange32 (Int.tdiv a b) := by
  unfold InRange32 at *
  by_cases h1 : b = 1
  · subst h1; rw [Int.tdiv_one]; exact ha
  by_cases h2 : b = -1
  · subst h2
    rw [Int.tdiv_neg, Int.tdiv_one]
    omega
  have hn : (Int.tdiv a b).natAbs = a.natAbs / b.natAbs := Int.natAbs_tdiv a b
  have hb2 : 2 ≤ b.natAbs := by omega
  have hle : a.natAbs / b.natAbs ≤ a.natAbs / 2 := Nat.div_le_div_left hb2 (by decide)
  omega

/-! ## Exact reading of `scale` and binary32 rounding -/

/-- In exact arithmetic the value `scale` computes for a coordinate is the
quotient by the factor. -/
theorem exact_coord (c v : ℚ) (h0 : v ≠ 0) : c - c * (1 - 1 / v) = c / v := by
  field_simp
  ring

/-- Evaluation of `roundF32` at a non-zero rational with numerator `±a` and
denominator `d`. -/
theorem roundF32_eval (q : ℚ) (a d n m : Nat) (hq : q ≠ 0) (ha : q.num.natAbs = a)
    (hd : q.den = d) (h : roundMag a d = some (n, m)) :
    roundF32 q = some (if q < 0 then -((n : ℚ) / (m : ℚ)) else (n : ℚ) / (m : ℚ)) := by
  simp only [roundF32, hq, if_false, ha, hd, h]

/-- Known binary32 values: `0.1f` is `13421773 / 2^27`, `1.f / 3.f` is
`11184811 / 2^25`, and `16777217` and `33554435` are not binary32 numbers: the
first is a tie and goes to the even `16777216`, the second goes up to
`33554436`. -/
theorem roundF32_samples :
    roundF32 (1 / 10) = some (13421773 / 134217728) ∧
    roundF32 (1 / 3) = some (11184811 / 33554432) ∧
    roundF32 16777217 = some 16777216 ∧
    roundF32 33554435 = some 33554436 := by
  refine ⟨?_, ?_, ?_, ?_⟩
  · rw [roundF32_eval _ 1 10 13421773 134217728 (by norm_num) (by norm_num) (by norm_num)
      (by decide)]
    norm_num
  · rw [roundF32_eval _ 1 3 11184811 33554432 (by norm_num) (by norm_num) (by norm_num)
      (by decide)]
    norm_num
  · rw [roundF32_eval _ 16777217 1 16777216 1 (by norm_num) (by norm_num) (by norm_num)
      (by decide)]
    norm_num
  · rw [roundF32_eval _ 33554435 1 33554436 1 (by norm_num) (by norm_num) (by norm_num)
      (by decide)]
    norm_num

/-- Evaluation of `truncQ` at a rational with numerator `n` and denominator
`d`. -/
theorem truncQ_eval (q : ℚ) (n : Int) (d : Nat) (hn : q.num = n) (hd : q.den = d) :
    truncQ q = Int.tdiv n d := by
  simp only [truncQ, hn, hd]

/-- The value `scale` computes in binary32 for a coordinate on which no
operation rounds is the truncation of the quotient by the factor. -/
theorem f32_coord (v : ℚ) (c : Int) (h0 : v ≠ 0)
    (hinv : roundF32 (1 / v) = some (1 / v))
    (hfac : roundF32 (1 - 1 / v) = some (1 - 1 / v)) (hc : ScaleExact v c) :
    f32Ops.toT (f32Ops.sub (f32Ops.ofT c)
      (f32Ops.mul (f32Ops.ofT c) (f32Ops.sub f32Ops.one (f32Ops.div f32Ops.one (some v)))))
      = truncQ ((c : ℚ) / v) := by
  obtain ⟨h1, h2, h3, h4⟩ := hc
  simp only [f32Ops, h0, if_false, hinv, hfac, h1, h2, h3]
  rw [exact_coord _ _ h0, if_pos h4]

/-- The conversion `truncQ` is truncation toward zero: the floor of a
non-negative rational, the ceiling of a non-positive one. -/
theorem truncQ_spec (q : ℚ) :
    (0 ≤ q → truncQ q = ⌊q⌋) ∧ (q ≤ 0 → truncQ q = ⌈q⌉) := by
  have hd : (0 : Int) ≤ (q.den : Int) := Int.ofNat_nonneg _
  constructor
  · intro h
    have hn : 0 ≤ q.num := Rat.num_nonneg.mpr h
    rw [truncQ, Rat.floor_def, Int.tdiv_eq_ediv hn hd]
  · intro h
    have hn : 0 ≤ -q.num := by
      have := Rat.num_nonpos.mpr h
      omega
    have e : q.num = -(-q.num) := by omega
    have hc : ⌈q⌉ = -⌊-q⌋ := by rw [Int.floor_neg, neg_neg]
    rw [hc, Rat.floor_def, Rat.neg_num, Rat.neg_den, truncQ]
    conv_lhs => rw [e]
    rw [Int.neg_tdiv, Int.tdiv_eq_ediv hn hd]

/-! ## Decimal text -/

theorem digitChar_spec (k : Nat) (h : k < 10) :
    (Nat.digitChar k).isDigit = true ∧ (Nat.digitChar k).toNat - 48 = k := by
  interval_cases k <;> exact ⟨by decide, by decide⟩

theorem digitsVal_snoc (cs : List Char) (d : Char) :
    digitsVal (cs ++ [d]) = 10 * digitsVal cs + (d.toNat - 48) := by
  simp [digitsVal, List.foldl_append]

theorem toDigitsCore_spec (fuel : Nat) : ∀ (n : Nat) (ds : List Char), n < fuel →
    ∃ pre : List Char, Nat.toDigitsCore 10 fuel n ds = pre ++ ds ∧ pre ≠ [] ∧
      (∀ c ∈ pre, c.isDigit = true) ∧ digitsVal pre = n := by
  induction fuel with
  | zero => intro n ds h; omega
  | succ fuel ih =>
    intro n ds h
    have hk := digitChar_spec (n % 10) (Nat.mod_lt n (by decide))
    by_cases hq : n / 10 = 0
    · refine ⟨[Nat.digitChar (n % 10)], ?_, by simp, ?_, ?_⟩
      · simp [Nat.toDigitsCore, hq]
      · intro c hc
        simp only [List.mem_singleton] at hc
        rw [hc]; exact hk.1
      · have := digitsVal_snoc [] (Nat.digitChar (n % 10))
        simp only [List.nil_append] at this
        rw [this, hk.2]
        simp only [digitsVal, List.foldl_nil]
        omega
    · obtain ⟨pre, h1, _, h3, h4⟩ := ih (n / 10) (Nat.digitChar (n % 10) :: ds) (by omega)
      refine ⟨pre ++ [Nat.digitChar (n % 10)], ?_, by simp, ?_, ?_⟩
      · simp [Nat.toDigitsCore, hq, h1]
      · intro c hc
        rcases List.mem_append.mp hc with hc | hc
        · exact h3 c hc
        · simp only [List.mem_singleton] at hc
          rw [hc]; exact hk.1
      · rw [digitsVal_snoc, h4, hk.2]
        omega

theorem natText_spec (n : Nat) :
    natText n ≠ [] ∧ (∀ c ∈ natText n, c.isDigit = true) ∧ digitsVal (natText n) = n := by
  obtain ⟨pre, h1, h2, h3, h4⟩ := toDigitsCore_spec (n + 1) n [] (by omega)
  have e : natText n = pre := by
    simp only [natText, Nat.toDigits, h1, List.append_nil]
  rw [e]
  exact ⟨h2, h3, h4⟩

theorem span_digits (l rest : List Char) (hl : ∀ c ∈ l, c.isDigit = true)
    (hr : ∀ c ∈ rest.head?, c.isDigit = false) :
    (l ++ rest).takeWhile Char.isDigit = l ∧ (l ++ rest).dropWhile Char.isDigit = rest := by
  induction l with
  | nil =>
    cases rest with
    | nil => simp
    | cons r rs =>
      have : r.isDigit = false := hr r (by simp)
      simp [this]
  | cons a l ih =>
    have ha : a.isDigit = true := hl a (by simp)
    have := ih (fun c hc => hl c (by simp [hc]))
    simp [ha, this.1, this.2]

theorem digit_not_special (c : Char) (h : c.isDigit = true) :
    isSpace c = false ∧ (c == '-') = false ∧ (c == '+') = false := by
  refine ⟨?_, ?_, ?_⟩
  · simp only [isSpace, Bool.or_eq_false_iff, beq_eq_false_iff_ne, ne_eq]
    refine ⟨⟨⟨⟨⟨?_, ?_⟩, ?_⟩, ?_⟩, ?_⟩, ?_⟩ <;>
      (rintro rfl; exact absurd h (by decide))
  · simp only [beq_eq_false_iff_ne, ne_eq]
    rintro rfl; exact absurd h (by decide)
  · simp only [beq_eq_false_iff_ne, ne_eq]
    rintro rfl; exact absurd h (by decide)

theorem getInt_nonneg (m : Nat) (rest : List Char) (old : Int) (hm : (m : Int) ≤ 2147483647)
    (hr : ∀ c ∈ rest.head?, c.isDigit = false) :
    IStream.getInt ⟨natText m ++ rest, false, false⟩ old = (⟨rest, rest.isEmpty, false⟩, (m : Int)) := by
  obtain ⟨hne, hdig, hval⟩ := natText_spec m
  obtain ⟨hT, hD⟩ := span_digits (natText m) rest hdig hr
  obtain ⟨c, cs, hcs⟩ := List.exists_cons_of_ne_nil hne
  have hc : c.isDigit = true := hdig c (by simp [hcs])
  obtain ⟨h1, h2, h3⟩ := digit_not_special c hc
  rw [hcs] at hT hD hval
  have hsp : List.dropWhile isSpace (c :: (cs ++ rest)) = c :: (cs ++ rest) := by simp [h1]
  simp only [List.cons_append] at hT hD
  simp only [IStream.getInt, hcs, List.cons_append, Bool.or_self, Bool.false_eq_true, if_false,
    hsp, h2, h3, hT, hD, hval, List.isEmpty_cons]
  rw [if_neg (by omega), if_neg (by omega)]

theorem getInt_neg (m : Nat) (rest : List Char) (old : Int) (hm : (m : Int) ≤ 2147483648)
    (hr : ∀ c ∈ rest.head?, c.isDigit = false) :
    IStream.getInt ⟨'-' :: natText m ++ rest, false, false⟩ old
      = (⟨rest, rest.isEmpty, false⟩, -(m : Int)) := by
  obtain ⟨hne, hdig, hval⟩ := natText_spec m
  obtain ⟨hT, hD⟩ := span_digits (natText m) rest hdig hr
  have hs : List.dropWhile isSpace ('-' :: (natText m ++ rest)) = '-' :: (natText m ++ rest) := by
    have : isSpace '-' = false := by decide
    simp [this]
  have hnil : (List.takeWhile Char.isDigit (natText m ++ rest)).isEmpty = false := by
    rw [hT]; cases h : natText m with
    | nil => exact absurd h hne
    | cons a l => rfl
  simp only [IStream.getInt, List.cons_append, Bool.or_self, Bool.false_eq_true, if_false,
    hs, beq_self_eq_true, Bool.true_or, if_true, hnil]
  simp only [hT, hD, hval]
  rw [if_neg (by omega), if_neg (by omega)]

theorem getInt_intText (n : Int) (rest : List Char) (old : Int) (hn : InRange32 n)
    (hr : ∀ c ∈ rest.head?, c.isDigit = false) :
    IStream.getInt ⟨intText n ++ rest, false, false⟩ old = (⟨rest, rest.isEmpty, false⟩, n) := by
  unfold InRange32 at hn
  unfold intText
  split
  · rename_i h
    have e : (((-n).toNat : Nat) : Int) = -n := Int.toNat_of_nonneg (by omega)
    have := getInt_neg (-n).toNat rest old (by omega) hr
    rw [e, neg_neg] at this
    exact this
  · rename_i h
    have e : ((n.toNat : Nat) : Int) = n := Int.toNat_of_nonneg (by omega)
    have := getInt_nonneg n.toNat rest old (by omega) hr
    rw [e] at this
    exact this

theorem getInt_skip_space (cs : List Char) (old : Int) :
    IStream.getInt ⟨' ' :: cs, false, false⟩ old = IStream.getInt ⟨cs, false, false⟩ old := by
  have hs : List.dropWhile isSpace (' ' :: cs) = List.dropWhile isSpace cs := by
    have : isSpace ' ' = true := by decide
    simp [this]
  simp only [IStream.getInt, Bool.or_self, Bool.false_eq_true, if_false, hs]

theorem intText_eq_toString (n : Int) : intText n = (toString n).toList := by
  cases n with
  | ofNat m =>
    have h : ¬ ((Int.ofNat m) < 0) := by
      have : (0 : Int) ≤ Int.ofNat m := Int.ofNat_nonneg m
      omega
    simp only [intText, h, if_false]
    rfl
  | negSucc m =>
    have h : Int.negSucc m < 0 := Int.negSucc_lt_zero m
    simp only [intText, h, if_true]
    rfl

theorem space_not_mem_intText (n : Int) : ' ' ∉ intText n := by
  intro h
  unfold intText at h
  split at h
  · rcases List.mem_cons.mp h with h | h
    · exact absurd h (by decide)
    · exact absurd ((natText_spec _).2.1 _ h) (by decide)
  · exact absurd ((natText_spec _).2.1 _ h) (by decide)

/-! ## The claims -/

/-- C1: for every element type and every reading of the `float` operations,
`p.scale(1.f)` leaves the receiver exactly as it was and returns a point with
the coordinates of `p`. -/
theorem scale_one_identity {F T : Type} [DecidableEq F] (fl : TPoint.FloatOps F T)
    (p : TPoint T) : TPoint.scale fl p fl.one = (p, p) := by
  simp [TPoint.scale]

/-- C3: for every integer point `p`, the text `operator<<` writes for `p`,
read back with `operator>>` into any point `q`, gives the coordinates of `p`
(so the result `== p`), negative coordinates included, and the stream has not
failed. -/
theorem text_round_trip (p q : Point) (hp : p.InRange) :
    (operatorShr (IStream.ofText (operatorShl ⟨[]⟩ p).buf) q).2 = p ∧
    TPoint.operatorEq (operatorShr (IStream.ofText (operatorShl ⟨[]⟩ p).buf) q).2 p = true ∧
    (operatorShr (IStream.ofText (operatorShl ⟨[]⟩ p).buf) q).1.failbit = false := by
  obtain ⟨px, py⟩ := p
  obtain ⟨hx, hy⟩ := hp
  have hsp : ∀ c ∈ (' ' :: intText py).head?, c.isDigit = false := by
    intro c hc
    simp only [List.head?_cons, Option.mem_def, Option.some.injEq] at hc
    rw [← hc]; decide
  have hnil : ∀ c ∈ ([] : List Char).head?, c.isDigit = false := by
    intro c hc; simp at hc
  have g1 := getInt_intText px (' ' :: intText py) q.x hx hsp
  have g2 := getInt_intText py [] q.y hy hnil
  rw [List.append_nil] at g2
  have e : (operatorShr (IStream.ofText (operatorShl ⟨[]⟩ (⟨px, py⟩ : Point)).buf) q)
      = (⟨[], true, false⟩, ⟨px, py⟩) := by
    simp only [operatorShr, operatorShl, StreamElem.put, StreamElem.get, OStream.putStr,
      IStream.ofText, List.nil_append, List.append_assoc, List.singleton_append, g1,
      List.isEmpty_cons, getInt_skip_space, g2, List.isEmpty_nil]
  rw [e]
  simp [TPoint.operatorEq, Elem.eq]

/-- Witness of C3: `Point(7,-3)` written and read back into `Point(0,0)`. -/
theorem text_round_trip_witness :
    Point.InRange ⟨7, -3⟩ ∧
    (operatorShr (IStream.ofText (operatorShl ⟨[]⟩ (⟨7, -3⟩ : Point)).buf) ⟨0, 0⟩).2
      = (⟨7, -3⟩ : Point) :=
  ⟨by decide, (text_round_trip ⟨7, -3⟩ ⟨0, 0⟩ (by decide)).1⟩

/-- C4: for every integer point, `operator<<` appends to the stream exactly
the decimal text of `x`, one space and the decimal text of `y`, in that order
and nothing else; the decimal text is the usual one and holds no space. -/
theorem operatorShl_text (out : OStream) (p : Point) :
    (operatorShl out p).buf = out.buf ++ (intText p.x ++ ' ' :: intText p.y) ∧
    (intText p.x = (toString p.x).toList ∧ intText p.y = (toString p.y).toList) ∧
    (' ' ∉ intText p.x ∧ ' ' ∉ intText p.y) := by
  refine ⟨?_, ⟨intText_eq_toString _, intText_eq_toString _⟩,
    ⟨space_not_mem_intText _, space_not_mem_intText _⟩⟩
  simp [operatorShl, StreamElem.put, OStream.putStr]

/-- C5: on integer points `p <= q` and `q <= p` together give `p == q`; for any
element type the same holds as soon as `<=` and `==` of the element type are so
related. -/
theorem le_antisymm_eq :
    (∀ p q : Point, TPoint.operatorLe p q = true → TPoint.operatorLe q p = true →
      TPoint.operatorEq p q = true) ∧
    (∀ (T : Type) [Elem T],
      (∀ a b : T, Elem.le a b = true → Elem.le b a = true → Elem.eq b a = true) →
      ∀ p q : TPoint T, TPoint.operatorLe p q = true → TPoint.operatorLe q p = true →
        TPoint.operatorEq p q = true) := by
  have gen : ∀ (T : Type) [Elem T],
      (∀ a b : T, Elem.le a b = true → Elem.le b a = true → Elem.eq b a = true) →
      ∀ p q : TPoint T, TPoint.operatorLe p q = true → TPoint.operatorLe q p = true →
        TPoint.operatorEq p q = true := by
    intro T _ law p q h1 h2
    simp only [TPoint.operatorLe, Bool.and_eq_true] at h1 h2
    simp only [TPoint.operatorEq, Bool.and_eq_true]
    exact ⟨law _ _ h1.1 h2.1, law _ _ h1.2 h2.2⟩
  refine ⟨?_, gen⟩
  apply gen Int
  intro a b hab hba
  simp only [Elem.le, Elem.eq, decide_eq_true_eq] at *
  omega

/-- Witness of C5 at `p = q = Point(1,2)`. -/
theorem le_antisymm_eq_witness :
    TPoint.operatorEq (⟨1, 2⟩ : Point) ⟨1, 2⟩ = true :=
  le_antisymm_eq.1 ⟨1, 2⟩ ⟨1, 2⟩ (by decide) (by decide)

/-- C6: the order is not total: `Point(1,5)` and `Point(5,1)` are distinct and
none of `p < q`, `q < p`, `p > q`, `q > p`, `p <= q`, `q <= p` holds. -/
theorem order_not_total :
    TPoint.operatorNe (⟨1, 5⟩ : Point) ⟨5, 1⟩ = true ∧
    TPoint.operatorEq (⟨1, 5⟩ : Point) ⟨5, 1⟩ = false ∧
    TPoint.operatorLt (⟨1, 5⟩ : Point) ⟨5, 1⟩ = false ∧
    TPoint.operatorLt (⟨5, 1⟩ : Point) ⟨1, 5⟩ = false ∧
    TPoint.operatorGt (⟨1, 5⟩ : Point) ⟨5, 1⟩ = false ∧
    TPoint.operatorGt (⟨5, 1⟩ : Point) ⟨1, 5⟩ = false ∧
    TPoint.operatorLe (⟨1, 5⟩ : Point) ⟨5, 1⟩ = false ∧
    TPoint.operatorLe (⟨5, 1⟩ : Point) ⟨1, 5⟩ = false := by
  decide

/-- C7: for every integer point, with overflow as wraparound (so also for a
coordinate `INT_MIN`), `p + (-p) == Point(0)`. -/
theorem add_neg_self (p : Point) :
    TPoint.operatorEq (TPoint.operatorPlus p (TPoint.operatorNeg p)) (TPoint.mk1 0) = true := by
  simp only [TPoint.operatorEq, TPoint.operatorPlus, TPoint.operatorNeg, TPoint.mk1, TPoint.mk2,
    Elem.add, Elem.neg, Elem.eq, wrap32_add_neg]
  decide

/-- C8: for every integer point `p` and all `int` values `dx`, `dy`, with
overflow as wraparound, `p.translated(dx, dy) - p == Point(dx, dy)`, and the
receiver is the same after the call. -/
theorem translated_minus_self (p : Point) (dx dy : Int) (hx : InRange32 dx) (hy : InRange32 dy) :
    TPoint.operatorEq (TPoint.operatorMinus (TPoint.translated p dx dy).2 p) (TPoint.mk2 dx dy)
      = true ∧
    (TPoint.translated p dx dy).1 = p := by
  simp only [TPoint.operatorEq, TPoint.operatorMinus, TPoint.translated, TPoint.mk2,
    Elem.add, Elem.sub, Elem.eq, wrap32_add_sub, wrap32_of_inRange dx hx,
    wrap32_of_inRange dy hy]
  simp

/-- Witness of C8 at `Point(2147483647, -5)` moved by `(1, 7)`. -/
theorem translated_minus_self_witness :
    (InRange32 1 ∧ InRange32 7) ∧
    TPoint.operatorEq
      (TPoint.operatorMinus (TPoint.translated (⟨2147483647, -5⟩ : Point) 1 7).2 ⟨2147483647, -5⟩)
      (TPoint.mk2 1 7) = true ∧
    (TPoint.translated (⟨2147483647, -5⟩ : Point) 1 7).1 = ⟨2147483647, -5⟩ :=
  ⟨⟨by decide, by decide⟩, translated_minus_self ⟨2147483647, -5⟩ 1 7 (by decide) (by decide)⟩

/-- Counterexample to C9: `Point(65536, 0)` has `int` coordinates, yet
`x * x` wraps to `0` in 32-bit arithmetic, so `length()` is the square root of
`0` and not that of `65536² + 0²`, even with `sqrt` and the cast read exactly. -/
theorem length_overflow_counterexample :
    Point.InRange ⟨65536, 0⟩ ∧
    TPoint.length Real.sqrt (fun n : Int => (n : ℝ)) (⟨65536, 0⟩ : Point)
      ≠ Real.sqrt (((65536 : Int) : ℝ) ^ 2 + ((0 : Int) : ℝ) ^ 2) := by
  refine ⟨by decide, ?_⟩
  have hw : wrap32 (wrap32 (65536 * 65536) + wrap32 (0 * 0)) = 0 := by decide
  have hl : TPoint.length Real.sqrt (fun n : Int => (n : ℝ)) (⟨65536, 0⟩ : Point) = 0 := by
    simp only [TPoint.length, Elem.add, Elem.mul, hw]
    simp
  have hr : Real.sqrt (((65536 : Int) : ℝ) ^ 2 + ((0 : Int) : ℝ) ^ 2) = 65536 := by
    have : (((65536 : Int) : ℝ) ^ 2 + ((0 : Int) : ℝ) ^ 2) = (65536 : ℝ) ^ 2 := by norm_num
    rw [this]
    exact Real.sqrt_sq (by norm_num)
  rw [hl, hr]
  norm_num

/-- C9, amended: for every integer point whose `x² + y²` is representable as
an `int`, `length()` is `sqrt` applied to the cast of the mathematical
`x² + y²`, for every reading of `sqrt` and the cast; read exactly it is the
square root of `x² + y²`. -/
theorem length_no_overflow (p : Point) (h : p.x * p.x + p.y * p.y ≤ 2147483647) :
    (∀ (F : Type) (sqrt : F → F) (toFloat : Int → F),
      TPoint.length sqrt toFloat p = sqrt (toFloat (p.x * p.x + p.y * p.y))) ∧
    TPoint.length Real.sqrt (fun n : Int => (n : ℝ)) p
      = Real.sqrt ((p.x : ℝ) ^ 2 + (p.y : ℝ) ^ 2) := by
  have gen : ∀ (F : Type) (sqrt : F → F) (toFloat : Int → F),
      TPoint.length sqrt toFloat p = sqrt (toFloat (p.x * p.x + p.y * p.y)) := by
    intro F sqrt toFloat
    simp only [TPoint.length, Elem.add, Elem.mul, sumsq_wrap p.x p.y h]
  refine ⟨gen, ?_⟩
  rw [gen ℝ]
  congr 1
  push_cast
  ring

/-- Witness of C9: `Point(3,4).length() == 5`. -/
theorem length_no_overflow_witness :
    (3 : Int) * 3 + 4 * 4 ≤ 2147483647 ∧
    TPoint.length Real.sqrt (fun n : Int => (n : ℝ)) (⟨3, 4⟩ : Point) = 5 := by
  refine ⟨by decide, ?_⟩
  rw [(length_no_overflow ⟨3, 4⟩ (by decide)).2]
  have : (((3 : Int) : ℝ) ^ 2 + ((4 : Int) : ℝ) ^ 2) = (5 : ℝ) ^ 2 := by norm_num
  rw [this]
  exact Real.sqrt_sq (by norm_num)

/-- C10: for every element type and every reading of `sqrt` and the cast,
`p.distanceFrom(q)` is `(p - q).length()`; read exactly,
`Point(0,0).distanceFrom(Point(3,4))` is `5`. -/
theorem distanceFrom_eq_length_minus :
    (∀ (T F : Type) [Elem T] (sqrt : F → F) (toFloat : T → F) (p q : TPoint T),
      TPoint.distanceFrom sqrt toFloat p q
        = TPoint.length sqrt toFloat (TPoint.operatorMinus p q)) ∧
    TPoint.distanceFrom Real.sqrt (fun n : Int => (n : ℝ)) (⟨0, 0⟩ : Point) ⟨3, 4⟩ = 5 := by
  refine ⟨fun T F _ sqrt toFloat p q => rfl, ?_⟩
  have hw : wrap32 (wrap32 (wrap32 (0 - 3) * wrap32 (0 - 3))
      + wrap32 (wrap32 (0 - 4) * wrap32 (0 - 4))) = 25 := by decide
  simp only [TPoint.distanceFrom, TPoint.length, TPoint.mk2, Elem.add, Elem.mul, Elem.sub, hw]
  have : ((25 : Int) : ℝ) = (5 : ℝ) ^ 2 := by norm_num
  rw [this]
  exact Real.sqrt_sq (by norm_num)

/-- C11: for every integer point whose `|x| + |y|` is representable as an
`int`, `manhattanLength()` is `|x| + |y|` and so is non-negative. -/
theorem manhattanLength_eq (p : Point) (h : |p.x| + |p.y| ≤ 2147483647) :
    TPoint.manhattanLength p = |p.x| + |p.y| ∧ 0 ≤ TPoint.manhattanLength p := by
  have hx : 0 ≤ |p.x| := abs_nonneg _
  have hy : 0 ≤ |p.y| := abs_nonneg _
  have ex : (if p.x < 0 then -p.x else p.x) = |p.x| := by
    split
    · rw [abs_of_neg (by assumption)]
    · rw [abs_of_nonneg (by omega)]
  have ey : (if p.y < 0 then -p.y else p.y) = |p.y| := by
    split
    · rw [abs_of_neg (by assumption)]
    · rw [abs_of_nonneg (by omega)]
  have e : TPoint.manhattanLength p = |p.x| + |p.y| := by
    simp only [TPoint.manhattanLength, Elem.add, Elem.abs, ex, ey]
    rw [wrap32_of_inRange |p.x| ⟨by omega, by omega⟩,
      wrap32_of_inRange |p.y| ⟨by omega, by omega⟩]
    exact wrap32_of_inRange _ ⟨by omega, by omega⟩
  rw [e]
  exact ⟨rfl, by omega⟩

/-- Witness of C11: `Point(3,4).manhattanLength() == 7`. -/
theorem manhattanLength_eq_witness :
    |(3 : Int)| + |(4 : Int)| ≤ 2147483647 ∧ TPoint.manhattanLength (⟨3, 4⟩ : Point) = 7 := by
  have h : |(3 : Int)| + |(4 : Int)| ≤ 2147483647 := by norm_num
  refine ⟨h, ?_⟩
  have e := (manhattanLength_eq ⟨3, 4⟩ h).1
  rw [e]
  norm_num

/-- C12: on integer points `isNull()` holds exactly when both coordinates are
`0`, and it is `p == Point()`; for any element type `isNull()` is `p == Point()`
as soon as `==` of the element type is symmetric.  `Point(0,0).isNull()` is
true and `Point(1,0).isNull()` is false. -/
theorem isNull_iff :
    (∀ p : Point, (TPoint.isNull p = true ↔ p.x = 0 ∧ p.y = 0) ∧
      TPoint.isNull p = TPoint.operatorEq p TPoint.mk0) ∧
    (∀ (T : Type) [Elem T], (∀ a b : T, Elem.eq a b = Elem.eq b a) →
      ∀ p : TPoint T, TPoint.isNull p = TPoint.operatorEq p TPoint.mk0) ∧
    TPoint.isNull (⟨0, 0⟩ : Point) = true ∧ TPoint.isNull (⟨1, 0⟩ : Point) = false := by
  have gen : ∀ (T : Type) [Elem T], (∀ a b : T, Elem.eq a b = Elem.eq b a) →
      ∀ p : TPoint T, TPoint.isNull p = TPoint.operatorEq p TPoint.mk0 := by
    intro T _ law p
    simp only [TPoint.isNull, TPoint.operatorEq, TPoint.mk0, law p.x, law p.y]
  refine ⟨fun p => ⟨?_, ?_⟩, gen, by decide, by decide⟩
  · simp [TPoint.isNull, Elem.eq, Elem.zero]
  · apply gen Int
    intro a b
    simp only [Elem.eq, eq_comm]

/-- C13: integer points that compare `==` have the same `hash()`, whatever the
width of `std::size_t`; `hash()` is a function of the two coordinates. -/
theorem hash_consistent (bits : Nat) (p q : Point) :
    (TPoint.operatorEq p q = true → Point.hash bits p = Point.hash bits q) ∧
    (p.x = q.x → p.y = q.y → Point.hash bits p = Point.hash bits q) := by
  have h2 : p.x = q.x → p.y = q.y → Point.hash bits p = Point.hash bits q := by
    intro hx hy
    simp only [Point.hash, TPoint.hash, hx, hy]
  refine ⟨?_, h2⟩
  intro h
  simp only [TPoint.operatorEq, Elem.eq, Bool.and_eq_true, decide_eq_true_eq] at h
  exact h2 h.1.symm h.2.symm

/-- Witness of C13 at `Point(3,-4)` on a 64-bit platform. -/
theorem hash_consistent_witness :
    Point.hash 64 (⟨3, -4⟩ : Point) = Point.hash 64 (⟨3, -4⟩ : Point) :=
  (hash_consistent 64 ⟨3, -4⟩ ⟨3, -4⟩).1 (by decide)

/-- C14: on integer points `p == q` holds exactly when both coordinates are
equal and `p != q` is its negation, so exactly one of the two holds; for any
element type `p != q` is the negation of `p == q` as soon as `!=` of the element
type is the negation of its `==`. -/
theorem ne_is_not_eq :
    (∀ p q : Point, (TPoint.operatorEq p q = true ↔ p.x = q.x ∧ p.y = q.y) ∧
      TPoint.operatorNe p q = !TPoint.operatorEq p q ∧
      (TPoint.operatorEq p q = true ∨ TPoint.operatorNe p q = true) ∧
      ¬ (TPoint.operatorEq p q = true ∧ TPoint.operatorNe p q = true)) ∧
    (∀ (T : Type) [Elem T], (∀ a b : T, Elem.ne a b = !Elem.eq a b) →
      ∀ p q : TPoint T, TPoint.operatorNe p q = !TPoint.operatorEq p q) := by
  have gen : ∀ (T : Type) [Elem T], (∀ a b : T, Elem.ne a b = !Elem.eq a b) →
      ∀ p q : TPoint T, TPoint.operatorNe p q = !TPoint.operatorEq p q := by
    intro T _ law p q
    simp only [TPoint.operatorNe, TPoint.operatorEq, law, Bool.not_and]
  have hint : ∀ p q : Point, TPoint.operatorNe p q = !TPoint.operatorEq p q := by
    apply gen Int
    intro a b
    simp [Elem.ne, Elem.eq]
  refine ⟨fun p q => ⟨?_, hint p q, ?_, ?_⟩, gen⟩
  · simp only [TPoint.operatorEq, Elem.eq, Bool.and_eq_true, decide_eq_true_eq]
    constructor
    · rintro ⟨h1, h2⟩; exact ⟨h1.symm, h2.symm⟩
    · rintro ⟨h1, h2⟩; exact ⟨h1.symm, h2.symm⟩
  · rw [hint p q]
    cases TPoint.operatorEq p q <;> simp
  · rw [hint p q]
    cases TPoint.operatorEq p q <;> simp

/-- Counterexample to C15: `Point(INT_MIN, 5)` and `Point(-1, 1)` are integer
points and both coordinates of the divisor are non-zero, yet `INT_MIN / -1` is
undefined, so neither `p / q` nor `p /= q` has a result. -/
theorem div_overflow_counterexample :
    (Point.InRange ⟨-2147483648, 5⟩ ∧ Point.InRange ⟨-1, 1⟩) ∧
    ((-1 : Int) ≠ 0 ∧ (1 : Int) ≠ 0) ∧
    TPoint.operatorDiv (⟨-2147483648, 5⟩ : Point) ⟨-1, 1⟩ = none ∧
    TPoint.operatorDivAssign (⟨-2147483648, 5⟩ : Point) ⟨-1, 1⟩ = none := by
  decide

/-- C15, amended: for every element type the compound operators `+=`, `-=`,
`*=` with a point leave the receiver equal to what `+`, `-`, `*` return for the
original receiver and leave the argument as it was, and `p /= q` does so against
`p / q` whenever one of them has a result; on integer points the results are
element-wise, `x` with `x` and `y` with `y`, in 32-bit arithmetic, and `p / q`
and `p /= q` have the truncated quotients as their result when both coordinates
of `q` are non-zero and neither quotient is `INT_MIN / -1`. -/
theorem assign_forms_agree :
    (∀ (T : Type) [Elem T] (p q : TPoint T),
      TPoint.operatorPlusAssign p q = (TPoint.operatorPlus p q, q) ∧
      TPoint.operatorMinusAssign p q = (TPoint.operatorMinus p q, q) ∧
      TPoint.operatorTimesAssign p q = (TPoint.operatorTimes p q, q) ∧
      (∀ r : TPoint T, TPoint.operatorDiv p q = some r ↔
        TPoint.operatorDivAssign p q = some (r, q))) ∧
    (∀ p q : Point,
      TPoint.operatorPlus p q = ⟨wrap32 (p.x + q.x), wrap32 (p.y + q.y)⟩ ∧
      TPoint.operatorMinus p q = ⟨wrap32 (p.x - q.x), wrap32 (p.y - q.y)⟩ ∧
      TPoint.operatorTimes p q = ⟨wrap32 (p.x * q.x), wrap32 (p.y * q.y)⟩ ∧
      (p.InRange → q.x ≠ 0 → q.y ≠ 0 →
        ¬ (p.x = -2147483648 ∧ q.x = -1) → ¬ (p.y = -2147483648 ∧ q.y = -1) →
        TPoint.operatorDiv p q = some ⟨Int.tdiv p.x q.x, Int.tdiv p.y q.y⟩ ∧
        TPoint.operatorDivAssign p q = some (⟨Int.tdiv p.x q.x, Int.tdiv p.y q.y⟩, q) ∧
        Point.InRange ⟨Int.tdiv p.x q.x, Int.tdiv p.y q.y⟩)) := by
  refine ⟨fun T _ p q => ⟨rfl, rfl, rfl, fun r => ?_⟩,
    fun p q => ⟨rfl, rfl, rfl, fun hp hx hy hmx hmy => ?_⟩⟩
  · simp only [TPoint.operatorDiv, TPoint.operatorDivAssign, TPoint.mk2]
    cases Elem.div p.x q.x <;> cases Elem.div p.y q.y <;> simp
  · have ex : (Elem.div p.x q.x : Option Int) = some (Int.tdiv p.x q.x) := by
      simp [Elem.div, hx, hmx]
    have ey : (Elem.div p.y q.y : Option Int) = some (Int.tdiv p.y q.y) := by
      simp [Elem.div, hy, hmy]
    refine ⟨?_, ?_, tdiv_inRange _ _ hp.1 hx hmx, tdiv_inRange _ _ hp.2 hy hmy⟩
    · simp only [TPoint.operatorDiv, ex, ey, TPoint.mk2]
    · simp only [TPoint.operatorDivAssign, ex, ey]

/-- Witness of C15: `Point(-7,9) / Point(2,-2)` is `Point(-3,-4)`, and
`Point(-7,9) /= Point(2,-2)` leaves the receiver at it. -/
theorem assign_forms_agree_witness :
    TPoint.operatorDiv (⟨-7, 9⟩ : Point) ⟨2, -2⟩ = some ⟨-3, -4⟩ ∧
    TPoint.operatorDivAssign (⟨-7, 9⟩ : Point) ⟨2, -2⟩ = some (⟨-3, -4⟩, ⟨2, -2⟩) := by
  have h := (assign_forms_agree.2 ⟨-7, 9⟩ ⟨2, -2⟩).2.2.2 (by decide) (by decide) (by decide)
    (by decide) (by decide)
  have e : (⟨Int.tdiv (-7) 2, Int.tdiv 9 (-2)⟩ : Point) = ⟨-3, -4⟩ := by decide
  rw [← e]
  exact ⟨h.1, h.2.1⟩

/-- C16: on integer points `<=` is reflexive and transitive, and `<` is
transitive. -/
theorem le_refl_trans (p q r : Point) :
    TPoint.operatorLe p p = true ∧
    (TPoint.operatorLe p q = true → TPoint.operatorLe q r = true →
      TPoint.operatorLe p r = true) ∧
    (TPoint.operatorLt p q = true → TPoint.operatorLt q r = true →
      TPoint.operatorLt p r = true) := by
  simp only [TPoint.operatorLe, TPoint.operatorLt, Elem.le, Elem.lt, Bool.and_eq_true,
    decide_eq_true_eq]
  refine ⟨⟨le_refl _, le_refl _⟩, ?_, ?_⟩
  · rintro ⟨h1, h2⟩ ⟨h3, h4⟩; exact ⟨by omega, by omega⟩
  · rintro ⟨h1, h2⟩ ⟨h3, h4⟩; exact ⟨by omega, by omega⟩

/-- Witness of C16 at `Point(1,2) <= Point(1,5) <= Point(3,5)`. -/
theorem le_refl_trans_witness :
    TPoint.operatorLe (⟨1, 2⟩ : Point) ⟨3, 5⟩ = true :=
  (le_refl_trans ⟨1, 2⟩ ⟨1, 5⟩ ⟨3, 5⟩).2.1 (by decide) (by decide)

/-- C17: for every element type, adding or subtracting a scalar `s` gives the
point that adding or subtracting `Point(s)` gives, and `+=`, `-=` with `s` leave
the receiver equal to it; on integer points the two compare `==`. -/
theorem scalar_forms_agree :
    (∀ (T : Type) [Elem T] (p : TPoint T) (s : T),
      TPoint.operatorPlusScalar p s = TPoint.operatorPlus p (TPoint.mk1 s) ∧
      TPoint.operatorMinusScalar p s = TPoint.operatorMinus p (TPoint.mk1 s) ∧
      TPoint.operatorPlusAssignScalar p s = TPoint.operatorPlus p (TPoint.mk1 s) ∧
      TPoint.operatorMinusAssignScalar p s = TPoint.operatorMinus p (TPoint.mk1 s)) ∧
    (∀ (p : Point) (s : Int),
      TPoint.operatorEq (TPoint.operatorPlusScalar p s) (TPoint.operatorPlus p (TPoint.mk1 s))
        = true ∧
      TPoint.operatorEq (TPoint.operatorMinusScalar p s) (TPoint.operatorMinus p (TPoint.mk1 s))
        = true ∧
      TPoint.operatorEq (TPoint.operatorPlusAssignScalar p s)
        (TPoint.operatorPlus p (TPoint.mk1 s)) = true ∧
      TPoint.operatorEq (TPoint.operatorMinusAssignScalar p s)
        (TPoint.operatorMinus p (TPoint.mk1 s)) = true ∧
      TPoint.operatorPlusScalar p s = ⟨wrap32 (p.x + s), wrap32 (p.y + s)⟩ ∧
      TPoint.operatorMinusScalar p s = ⟨wrap32 (p.x - s), wrap32 (p.y - s)⟩) := by
  have hrefl : ∀ a : Point, TPoint.operatorEq a a = true := by
    intro a
    simp [TPoint.operatorEq, Elem.eq]
  refine ⟨fun T _ p s => ⟨rfl, rfl, rfl, rfl⟩, fun p s => ⟨?_, ?_, ?_, ?_, rfl, rfl⟩⟩
  · exact hrefl _
  · exact hrefl _
  · exact hrefl _
  · exact hrefl _

/-- C18: on integer points `p < q` gives `p <= q` and `p != q`, but `<` is not
the strict part of `<=`: for `Point(1,1)` and `Point(1,2)`, `p <= q` and
`p != q` hold and `p < q` does not. -/
theorem lt_not_strict_part :
    (∀ p q : Point, TPoint.operatorLt p q = true →
      TPoint.operatorLe p q = true ∧ TPoint.operatorNe p q = true) ∧
    (TPoint.operatorLe (⟨1, 1⟩ : Point) ⟨1, 2⟩ = true ∧
      TPoint.operatorNe (⟨1, 1⟩ : Point) ⟨1, 2⟩ = true ∧
      TPoint.operatorLt (⟨1, 1⟩ : Point) ⟨1, 2⟩ = false) := by
  refine ⟨?_, by decide⟩
  intro p q
  simp only [TPoint.operatorLe, TPoint.operatorLt, TPoint.operatorNe, Elem.le, Elem.lt, Elem.ne,
    Bool.and_eq_true, Bool.or_eq_true, decide_eq_true_eq]
  rintro ⟨h1, h2⟩
  exact ⟨⟨by omega, by omega⟩, Or.inl (by omega)⟩

/-- Witness of C18 at `Point(1,1) < Point(2,3)`. -/
theorem lt_not_strict_part_witness :
    TPoint.operatorLe (⟨1, 1⟩ : Point) ⟨2, 3⟩ = true ∧
    TPoint.operatorNe (⟨1, 1⟩ : Point) ⟨2, 3⟩ = true :=
  lt_not_strict_part.1 ⟨1, 1⟩ ⟨2, 3⟩ (by decide)

/-- C19: on integer points, with the subtraction and the squares in 32-bit
arithmetic with wraparound, `p.distanceFrom(q)` is `q.distanceFrom(p)` for
every reading of `sqrt` and the cast, and `p.distanceFrom(p)` is the square
root of the cast of `0`, which is `0` read exactly. -/
theorem distanceFrom_symm {F : Type} (sqrt : F → F) (toFloat : Int → F) (p q : Point) :
    TPoint.distanceFrom sqrt toFloat p q = TPoint.distanceFrom sqrt toFloat q p ∧
    TPoint.distanceFrom sqrt toFloat p p = sqrt (toFloat 0) ∧
    TPoint.distanceFrom Real.sqrt (fun n : Int => (n : ℝ)) p p = 0 := by
  have hz : ∀ a : Int, wrap32 (wrap32 (wrap32 (a - a) * wrap32 (a - a))
      + wrap32 (wrap32 (p.y - p.y) * wrap32 (p.y - p.y))) = 0 := by
    intro a
    simp only [sub_self]
    decide
  refine ⟨?_, ?_, ?_⟩
  · simp only [TPoint.distanceFrom, TPoint.length, TPoint.mk2, Elem.add, Elem.mul, Elem.sub]
    rw [wrap32_sq_sub_comm p.x q.x, wrap32_sq_sub_comm p.y q.y]
  · simp only [TPoint.distanceFrom, TPoint.length, TPoint.mk2, Elem.add, Elem.mul, Elem.sub,
      hz p.x]
  · simp only [TPoint.distanceFrom, TPoint.length, TPoint.mk2, Elem.add, Elem.mul, Elem.sub,
      hz p.x]
    simp

/-- C20: for every integer point, `hash()` is `(7 * 15 + x) * 15 + y` in 32-bit
arithmetic with wraparound, converted to `std::size_t`, and the distinct point
`(x + 1, y - 15)`, also with its coordinates wrapped to `int`, has the same
`hash()`: the hash is not injective. -/
theorem hash_collision (bits : Nat) (x y : Int) :
    Point.hash bits ⟨x, y⟩ = toSizeT bits (wrap32 ((7 * 15 + x) * 15 + y)) ∧
    (Point.hash bits ⟨x + 1, y - 15⟩ = Point.hash bits ⟨x, y⟩ ∧
      (⟨x + 1, y - 15⟩ : Point) ≠ ⟨x, y⟩) ∧
    (Point.hash bits ⟨wrap32 (x + 1), wrap32 (y - 15)⟩ = Point.hash bits ⟨x, y⟩ ∧
      TPoint.operatorNe (⟨wrap32 (x + 1), wrap32 (y - 15)⟩ : Point) ⟨x, y⟩ = true) := by
  have e : ∀ a b : Int, Point.hash bits ⟨a, b⟩ = toSizeT bits (wrap32 ((7 * 15 + a) * 15 + b)) := by
    intro a b
    simp only [Point.hash, TPoint.hash, Elem.add, Elem.mul, wrap32_hash_expr]
  refine ⟨e x y, ⟨?_, ?_⟩, ⟨?_, ?_⟩⟩
  · rw [e, e]
    congr 2
    ring
  · intro h
    have := congrArg TPoint.x h
    simp only at this
    omega
  · rw [e, e]
    congr 1
    unfold wrap32; omega
  · simp only [TPoint.operatorNe, Elem.ne, Bool.or_eq_true, decide_eq_true_eq]
    left
    unfold wrap32; omega

end OTClient
